import Mathlib

set_option maxRecDepth 1000000

/-!
Verification of the two text-patching scripts of the NoesisNoema repository:
`scripts/fix_build_settings.py` (ConfigurationPatcher) and
`scripts/patch_xcframework_paths.py` (PathRewriter).

Texts are modelled as `List Char`.  Python string primitives used by the
scripts (`str.find`, `str.splitlines`, `str.strip`, `"\n".join`, substring
`in`, and the two regular expressions) are embedded as executable Lean
functions below, each one translated directly from the Python semantics.
-/

/-- Word character for the regex metachar `\b`: `[A-Za-z0-9_]`. -/
def isWordChar (c : Char) : Bool := c.isAlphanum || c = '_'

/-- Whitespace as matched by the Python regex class `\s` and stripped by
`str.strip` (ASCII part plus the common Unicode whitespace code points). -/
def pyIsSpace (c : Char) : Bool :=
  c = ' ' || c = '\t' || c = '\n' || c = '\r' || c = '\x0b' || c = '\x0c' ||
  c = '\x1c' || c = '\x1d' || c = '\x1e' || c = '\x1f' || c = '\x85' || c = '\xa0'

/-- Line terminators recognised by Python `str.splitlines`. -/
def isLineBreak (c : Char) : Bool :=
  c = '\n' || c = '\r' || c = '\x0b' || c = '\x0c' ||
  c = '\x1c' || c = '\x1d' || c = '\x1e' || c = '\x85' ||
  c = '\u2028' || c = '\u2029'

/-- Substring containment, Python `pat in s`. -/
def containsSub (pat : List Char) : List Char → Bool
  | [] => pat.isPrefixOf ([] : List Char)
  | c :: rest => pat.isPrefixOf (c :: rest) || containsSub pat rest

/-- Index of the first occurrence of `pat` in `l` (relative), Python `str.find`
restricted to the suffix searched. -/
def firstOcc (pat : List Char) : List Char → Option Nat
  | [] => if pat.isPrefixOf ([] : List Char) then some 0 else none
  | c :: rest =>
    if pat.isPrefixOf (c :: rest) then some 0
    else (firstOcc pat rest).map (fun k => k + 1)

/-- Python `text.find(pat, s)` (as an `Option` instead of `-1`). -/
def pyFind (t pat : List Char) (s : Nat) : Option Nat :=
  (firstOcc pat (t.drop s)).map (fun k => k + s)

/-- Number of (possibly overlapping) occurrences of `pat` in a text. -/
def countOcc (pat : List Char) : List Char → Nat
  | [] => 0
  | c :: rest => (if pat.isPrefixOf (c :: rest) then 1 else 0) + countOcc pat rest

/-- Python `str.strip()`. -/
def pyStrip (s : List Char) : List Char :=
  ((s.dropWhile pyIsSpace).reverse.dropWhile pyIsSpace).reverse

/-- The remainder after a line terminator `c`: a `'\r'` immediately followed
by `'\n'` consumes both characters (Python treats `"\r\n"` as one
terminator). -/
def afterBreak (c : Char) (rest : List Char) : List Char :=
  if c = '\r' then
    match rest with
    | '\n' :: r => r
    | _ => rest
  else rest

/-- Python `str.splitlines()`, fuelled worker carrying the current (reversed)
line; the fuel only forces structural recursion and never runs out when it
starts at the length of the text. -/
def splitlinesF : Nat → List Char → List Char → List (List Char)
  | 0, acc, _ => [acc.reverse]
  | _ + 1, acc, [] => [acc.reverse]
  | fuel + 1, acc, c :: rest =>
    if isLineBreak c then
      acc.reverse ::
        (if (afterBreak c rest).isEmpty then []
         else splitlinesF fuel [] (afterBreak c rest))
    else splitlinesF fuel (c :: acc) rest

/-- Python `str.splitlines()`. -/
def splitlines (s : List Char) : List (List Char) :=
  match s with
  | [] => []
  | _ => splitlinesF s.length [] s

/-- Python `"\n".join`. -/
def joinNL : List (List Char) → List Char
  | [] => []
  | l :: ls =>
    match ls with
    | [] => l
    | _ => l ++ '\n' :: joinNL ls

/- ===================== PathRewriter (patch_xcframework_paths.py) ========= -/

/-- The old relative path `Frameworks/<name>.xcframework`. -/
def fwOld (name : List Char) : List Char :=
  "Frameworks/".toList ++ name ++ ".xcframework".toList

/-- The new relative path `Frameworks/xcframeworks/<name>.xcframework`. -/
def fwNew (name : List Char) : List Char :=
  "Frameworks/xcframeworks/".toList ++ name ++ ".xcframework".toList

/-- Attempt of the regex `(\bFrameworks/)<name>\.xcframework(\s*=)` at the head
of `s` (boundary checked by the caller).  Returns the whitespace run captured
by `\s*` and the remainder of the text after the matched `=`. -/
def tryMatch (name s : List Char) : Option (List Char × List Char) :=
  if (fwOld name).isPrefixOf s then
    let r1 := s.drop (fwOld name).length
    let ws := r1.takeWhile pyIsSpace
    match r1.drop ws.length with
    | '=' :: v => some (ws, v)
    | _ => none
  else none

/-- Fuelled scanner realising
`re.sub(r"(\bFrameworks/)<name>\.xcframework(\s*=)", r"\1xcframeworks/<name>.xcframework\2", s)`.
`b` records whether the previous character is a word character (for `\b`). -/
def subScanF (name : List Char) : Nat → Bool → List Char → List Char
  | 0, _, s => s
  | _ + 1, _, [] => []
  | fuel + 1, b, c :: rest =>
    if b then c :: subScanF name fuel (isWordChar c) rest
    else
      match tryMatch name (c :: rest) with
      | some (ws, v) => fwNew name ++ ws ++ '=' :: subScanF name fuel false v
      | none => c :: subScanF name fuel (isWordChar c) rest

/-- The substitution itself (`re.sub` of the script, step 1). -/
def subScan (name : List Char) (b : Bool) (s : List Char) : List Char :=
  subScanF name s.length b s

/-- Stale membership-exception entry for the macOS framework. -/
def staleMac : List Char := "Frameworks/llama_macos.xcframework,".toList

/-- Stale membership-exception entry for the iOS framework. -/
def staleIos : List Char := "Frameworks/llama_ios.xcframework,".toList

/-- Line filter of step 2: keep a line unless its stripped form is one of the
two stale entries. -/
def keepLine (line : List Char) : Bool :=
  !(pyStrip line == staleMac || pyStrip line == staleIos)

/-- Lines surviving the filtering step, after both substitutions. -/
def keepLines (text : List Char) : List (List Char) :=
  (splitlines (subScan "llama_ios".toList false
      (subScan "llama_macos".toList false text))).filter keepLine

/-- The whole transformation of `patch_xcframework_paths.py`: two scoped
path substitutions, then line filtering, then re-joining with `"\n"`. -/
def rewritePaths (text : List Char) : List Char :=
  joinNL (keepLines text)

/- ===================== ConfigurationPatcher (fix_build_settings.py) ====== -/

/-- Literal prefix of the block-open regex
`\n\t\t<config_id> \/\* .+? \*\/ = \{` (everything before `.+?`). -/
def blockOpenPre (config_id : List Char) : List Char :=
  "\n\t\t".toList ++ config_id ++ " /* ".toList

/-- Literal suffix of the block-open regex (everything after `.+?`). -/
def blockOpenSuf : List Char := " */ = \x7b".toList

/-- Marker opening a settings region, `buildSettings = {`. -/
def bsMarker : List Char := "buildSettings = \x7b".toList

/-- Closing pattern of a settings region, `\n\t\t\t};`. -/
def bsClose : List Char := "\n\t\t\t\x7d;".toList

/-- Setting line inserted for `SWIFT_VERSION`. -/
def SWIFT_VERSION_LINE : List Char := "\t\t\t\tSWIFT_VERSION = 5.0;\n".toList

/-- Setting line inserted for `GENERATE_INFOPLIST_FILE`. -/
def GENERATE_INFOPLIST_LINE : List Char :=
  "\t\t\t\tGENERATE_INFOPLIST_FILE = YES;\n".toList

/-- Search of the block-open regex: `L1` is the literal prefix, `L2` the
literal suffix.  A match at a position exists when `L1` occurs there and `L2`
occurs at least one character further on (`.+?` is non-greedy, so the
nearest such `L2` gives the match end).  Returns `(m.start, m.end)`. -/
def regexScanAux (L1 L2 : List Char) : List Char → Option (Nat × Nat)
  | [] => none
  | c :: rest =>
    match (if L1.isPrefixOf (c :: rest) then pyFind (c :: rest) L2 (L1.length + 1)
          else none) with
    | some q => some (0, q + L2.length)
    | none => (regexScanAux L1 L2 rest).map (fun pr => (pr.1 + 1, pr.2 + 1))

/-- `start_pat.search(text)` of `patch_block`. -/
def regexSearch (t config_id : List Char) : Option (Nat × Nat) :=
  regexScanAux (blockOpenPre config_id) blockOpenSuf t

/-- The three locating steps of `patch_block`; returns
`(bs_content_start, bs_end)` on success, `none` where the Python code
returns the text unchanged. -/
def locate (t config_id : List Char) : Option (Nat × Nat) :=
  match regexSearch t config_id with
  | none => none
  | some (_, mEnd) =>
    match pyFind t bsMarker mEnd with
    | none => none
    | some bs_start =>
      match pyFind t bsClose bs_start with
      | none => none
      | some bs_end => some (bs_start + bsMarker.length, bs_end)

/-- The conditional insertions of `patch_block` on the extracted
`bs_content`. -/
def patchContent (bs_content : List Char) (set_swift set_infoplist : Bool) :
    List Char :=
  let c1 := if set_swift && !(containsSub "SWIFT_VERSION".toList bs_content)
            then bs_content ++ '\n' :: SWIFT_VERSION_LINE else bs_content
  if set_infoplist && !(containsSub "GENERATE_INFOPLIST_FILE".toList c1)
  then c1 ++ '\n' :: GENERATE_INFOPLIST_LINE else c1

/-- `patch_block` of `fix_build_settings.py`. -/
def patch_block (text config_id : List Char) (set_swift set_infoplist : Bool) :
    List Char :=
  match locate text config_id with
  | none => text
  | some (cs, n) =>
    text.take cs ++ patchContent ((text.take n).drop cs) set_swift set_infoplist
      ++ text.drop n

/-- The fixed identifier table `CONFIGS` (id, display name, swift, infoplist),
in the iteration order of the Python dict literal. -/
def CONFIGS : List (List Char × List Char × Bool × Bool) :=
  [("F41FD0242E2A467000909132".toList, "Project Debug".toList, true, false),
   ("F41FD0252E2A467000909132".toList, "Project Release".toList, true, false),
   ("F41FD0272E2A467000909132".toList, "NoesisNoema Debug".toList, true, true),
   ("F41FD0282E2A467000909132".toList, "NoesisNoema Release".toList, true, true),
   ("F460884E2E2CD45000D4C555".toList, "LlamaBridgeTest Debug".toList, true, false),
   ("F460884F2E2CD45000D4C555".toList, "LlamaBridgeTest Release".toList, true, false),
   ("F4C581062E4F006800E64194".toList, "NoesisNoemaMobile Debug".toList, true, true),
   ("F4C581072E4F006800E64194".toList, "NoesisNoemaMobile Release".toList, true, true)]

/-- The driver loop of `fix_build_settings.main`: thread the text through
`patch_block` for every table entry. -/
def applyAll (text : List Char) : List Char :=
  CONFIGS.foldl (fun acc e => patch_block acc e.1 e.2.2.1 e.2.2.2) text

/-- The report printed by `fix_build_settings.main` (one list element per
printed line), as a function of the original file content. -/
def reportLines (orig : List Char) : List (List Char) :=
  if applyAll orig == orig then
    ["No changes applied (already up to date?)".toList]
  else
    "Patched:".toList ::
      CONFIGS.map (fun e => " - ".toList ++ e.2.1 ++ " (".toList ++ e.1 ++ ")".toList)

/- ===================== Generic helper lemmas ============================= -/

/-- An insertion of `ins` into `t` at position `n` (proof-side abbreviation
for the reassembled texts produced by the patchers). -/
def insertAt (t : List Char) (n : Nat) (ins : List Char) : List Char :=
  t.take n ++ ins ++ t.drop n

theorem containsSub_iff {pat s : List Char} :
    containsSub pat s = true ↔ ∃ i, pat <+: s.drop i := by
  induction s with
  | nil =>
    simp only [containsSub, List.isPrefixOf_iff_prefix, List.drop_nil]
    exact ⟨fun h => ⟨0, h⟩, fun ⟨_, h⟩ => h⟩
  | cons c rest ih =>
    simp only [containsSub, Bool.or_eq_true, List.isPrefixOf_iff_prefix, ih]
    constructor
    · rintro (h | ⟨i, h⟩)
      · exact ⟨0, h⟩
      · exact ⟨i + 1, h⟩
    · rintro ⟨i, h⟩
      cases i with
      | zero => exact Or.inl h
      | succ i => exact Or.inr ⟨i, h⟩

theorem containsSub_append_left {pat s : List Char} (y : List Char)
    (h : containsSub pat s = true) : containsSub pat (s ++ y) = true := by
  rcases containsSub_iff.1 h with ⟨i, hi⟩
  rcases le_or_lt i s.length with hle | hlt
  · refine containsSub_iff.2 ⟨i, ?_⟩
    rw [List.drop_append_of_le_length hle]
    exact hi.trans (List.prefix_append _ _)
  · have : s.drop i = [] := List.drop_of_length_le (Nat.le_of_lt hlt)
    rw [this] at hi
    have hpat : pat = [] := List.prefix_nil.1 hi
    subst hpat
    exact containsSub_iff.2 ⟨0, List.nil_prefix⟩

theorem containsSub_append_right {pat s : List Char} (x : List Char)
    (h : containsSub pat s = true) : containsSub pat (x ++ s) = true := by
  rcases containsSub_iff.1 h with ⟨i, hi⟩
  refine containsSub_iff.2 ⟨x.length + i, ?_⟩
  rw [← List.drop_drop, List.drop_left]
  exact hi

theorem take_mid_drop {t : List Char} {cs n : Nat} (h : cs ≤ n) :
    t.take cs ++ (t.take n).drop cs ++ t.drop n = t := by
  have h1 : (t.take n).take cs = t.take cs := by
    rw [List.take_take, Nat.min_eq_left h]
  rw [← h1, List.take_append_drop, List.take_append_drop]


theorem firstOcc_nil (pat : List Char) :
    firstOcc pat [] = if pat.isPrefixOf ([] : List Char) then some 0 else none := rfl

theorem firstOcc_cons (pat : List Char) (c : Char) (rest : List Char) :
    firstOcc pat (c :: rest) =
      if pat.isPrefixOf (c :: rest) then some 0
      else (firstOcc pat rest).map (fun k => k + 1) := rfl

theorem firstOcc_some_iff {pat l : List Char} {k : Nat} :
    firstOcc pat l = some k ↔
      (pat <+: l.drop k ∧ ∀ m, m < k → ¬ pat <+: l.drop m) := by
  induction l generalizing k with
  | nil =>
    rw [firstOcc_nil]
    by_cases hp : pat <+: ([] : List Char)
    · rw [if_pos (List.isPrefixOf_iff_prefix.2 hp)]
      constructor
      · intro h
        injection h with h
        subst h
        exact ⟨by simpa using hp, by omega⟩
      · rintro ⟨_, hmin⟩
        rcases Nat.eq_zero_or_pos k with rfl | hk
        · rfl
        · exact absurd (by simpa using hp) (by simpa using hmin 0 hk)
    · rw [if_neg (fun hc => hp (List.isPrefixOf_iff_prefix.1 hc))]
      constructor
      · intro h
        exact absurd h (by simp)
      · rintro ⟨h, _⟩
        exact absurd (by simpa using h) hp
  | cons c rest ih =>
    rw [firstOcc_cons]
    by_cases hp : pat <+: c :: rest
    · rw [if_pos (List.isPrefixOf_iff_prefix.2 hp)]
      constructor
      · intro h
        injection h with h
        subst h
        exact ⟨by simpa using hp, by omega⟩
      · rintro ⟨_, hmin⟩
        rcases Nat.eq_zero_or_pos k with rfl | hk
        · rfl
        · exact absurd (by simpa using hp) (hmin 0 hk)
    · rw [if_neg (fun hc => hp (List.isPrefixOf_iff_prefix.1 hc))]
      rw [Option.map_eq_some']
      constructor
      · rintro ⟨k', hk', rfl⟩
        rcases ih.1 hk' with ⟨hpre, hmin⟩
        refine ⟨by simpa using hpre, ?_⟩
        intro m hm
        cases m with
        | zero => simpa using hp
        | succ m => simpa using hmin m (by omega)
      · rintro ⟨hpre, hmin⟩
        cases k with
        | zero => exact absurd (by simpa using hpre) hp
        | succ k =>
          refine ⟨k, ih.2 ⟨by simpa using hpre, ?_⟩, rfl⟩
          intro m hm
          have := hmin (m + 1) (by omega)
          simpa using this

theorem firstOcc_none_iff {pat l : List Char} :
    firstOcc pat l = none ↔ ∀ m, ¬ pat <+: l.drop m := by
  induction l with
  | nil =>
    rw [firstOcc_nil]
    by_cases hp : pat <+: ([] : List Char)
    · rw [if_pos (List.isPrefixOf_iff_prefix.2 hp)]
      constructor
      · intro h
        exact absurd h (by simp)
      · intro h
        exact absurd hp (by simpa using h 0)
    · rw [if_neg (fun hc => hp (List.isPrefixOf_iff_prefix.1 hc))]
      refine ⟨fun _ m => ?_, fun _ => rfl⟩
      simpa using hp
  | cons c rest ih =>
    rw [firstOcc_cons]
    by_cases hp : pat <+: c :: rest
    · rw [if_pos (List.isPrefixOf_iff_prefix.2 hp)]
      constructor
      · intro h
        exact absurd h (by simp)
      · intro h
        exact absurd hp (by simpa using h 0)
    · rw [if_neg (fun hc => hp (List.isPrefixOf_iff_prefix.1 hc))]
      rw [Option.map_eq_none', ih]
      constructor
      · intro h m
        cases m with
        | zero => simpa using hp
        | succ m => simpa using h m
      · intro h m
        have := h (m + 1)
        simpa using this

theorem pyFind_some_iff {t pat : List Char} {s i : Nat} :
    pyFind t pat s = some i ↔
      (s ≤ i ∧ pat <+: t.drop i ∧
        ∀ j, s ≤ j → j < i → ¬ pat <+: t.drop j) := by
  unfold pyFind
  rw [Option.map_eq_some']
  constructor
  · rintro ⟨k, hk, rfl⟩
    rcases firstOcc_some_iff.1 hk with ⟨hpre, hmin⟩
    rw [List.drop_drop] at hpre
    refine ⟨Nat.le_add_left _ _, by rwa [Nat.add_comm] at hpre, ?_⟩
    intro j hsj hji hc
    have h1 : pat <+: (t.drop s).drop (j - s) := by
      rw [List.drop_drop]
      have : s + (j - s) = j := by omega
      rw [this]
      exact hc
    exact hmin (j - s) (by omega) h1
  · rintro ⟨hsi, hpre, hmin⟩
    refine ⟨i - s, firstOcc_some_iff.2 ⟨?_, ?_⟩, by omega⟩
    · rw [List.drop_drop]
      have : s + (i - s) = i := by omega
      rw [this]
      exact hpre
    · intro m hm hc
      rw [List.drop_drop] at hc
      exact hmin (s + m) (Nat.le_add_right _ _) (by omega) hc

theorem pyFind_none_iff {t pat : List Char} {s : Nat} :
    pyFind t pat s = none ↔ ∀ j, s ≤ j → ¬ pat <+: t.drop j := by
  unfold pyFind
  rw [Option.map_eq_none', firstOcc_none_iff]
  constructor
  · intro h j hsj hc
    have h1 : pat <+: (t.drop s).drop (j - s) := by
      rw [List.drop_drop]
      have : s + (j - s) = j := by omega
      rw [this]
      exact hc
    exact h (j - s) h1
  · intro h m hc
    rw [List.drop_drop] at hc
    exact h (s + m) (Nat.le_add_right _ _) hc

/-- A block-open match exists at position `j` of `l`: the literal prefix
occurs there and the literal suffix occurs at least one character after it
(the semantics of the regex with its non-greedy `.+?`). -/
def matchAt (L1 L2 l : List Char) (j : Nat) : Prop :=
  L1 <+: l.drop j ∧ ∃ q, j + L1.length + 1 ≤ q ∧ L2 <+: l.drop q

theorem regexScanAux_some_spec {L1 L2 l : List Char} {p e : Nat}
    (h : regexScanAux L1 L2 l = some (p, e)) :
    L1 <+: l.drop p ∧
    (∃ q, e = q + L2.length ∧ p + L1.length + 1 ≤ q ∧ L2 <+: l.drop q ∧
      ∀ j, p + L1.length + 1 ≤ j → j < q → ¬ L2 <+: l.drop j) ∧
    ∀ j, j < p → ¬ matchAt L1 L2 l j := by
  induction l generalizing p e with
  | nil => exact absurd h (by simp [regexScanAux])
  | cons c rest ih =>
    rw [regexScanAux] at h
    by_cases hL1 : L1.isPrefixOf (c :: rest)
    · rw [if_pos hL1] at h
      cases hF : pyFind (c :: rest) L2 (L1.length + 1) with
      | some q =>
        rw [hF] at h
        injection h with h
        injection h with h1 h2
        subst h1
        subst h2
        rcases pyFind_some_iff.1 hF with ⟨hq1, hq2, hq3⟩
        refine ⟨List.isPrefixOf_iff_prefix.1 hL1, ⟨q, rfl, by omega, hq2, ?_⟩, by omega⟩
        intro j hj1 hj2
        exact hq3 j (by omega) hj2
      | none =>
        rw [hF] at h
        rw [Option.map_eq_some'] at h
        rcases h with ⟨⟨p', e'⟩, hrec, hpe⟩
        injection hpe with hp he
        subst hp
        subst he
        rcases ih hrec with ⟨h1, ⟨q, hq0, hq1, hq2, hq3⟩, h3⟩
        refine ⟨by simpa using h1, ⟨q + 1, by omega, by omega, by simpa using hq2, ?_⟩, ?_⟩
        · intro j hj1 hj2
          cases j with
          | zero => omega
          | succ j =>
            intro hc
            exact hq3 j (by omega) (by omega) (by simpa using hc)
        · intro j hj
          cases j with
          | zero =>
            rintro ⟨-, q', hq'1, hq'2⟩
            have := pyFind_none_iff.1 hF
            exact this q' (by omega) hq'2
          | succ j =>
            rintro ⟨ha, q', hq'1, hq'2⟩
            cases q' with
            | zero => omega
            | succ q' =>
              exact h3 j (by omega)
                ⟨by simpa using ha, q', by omega, by simpa using hq'2⟩
    · rw [if_neg hL1] at h
      rw [Option.map_eq_some'] at h
      rcases h with ⟨⟨p', e'⟩, hrec, hpe⟩
      injection hpe with hp he
      subst hp
      subst he
      rcases ih hrec with ⟨h1, ⟨q, hq0, hq1, hq2, hq3⟩, h3⟩
      refine ⟨by simpa using h1, ⟨q + 1, by omega, by omega, by simpa using hq2, ?_⟩, ?_⟩
      · intro j hj1 hj2
        cases j with
        | zero => omega
        | succ j =>
          intro hc
          exact hq3 j (by omega) (by omega) (by simpa using hc)
      · intro j hj
        cases j with
        | zero =>
          rintro ⟨ha, -⟩
          exact hL1 (List.isPrefixOf_iff_prefix.2 ha)
        | succ j =>
          rintro ⟨ha, q', hq'1, hq'2⟩
          cases q' with
          | zero => omega
          | succ q' =>
            exact h3 j (by omega)
              ⟨by simpa using ha, q', by omega, by simpa using hq'2⟩

theorem regexScanAux_eq_some {L1 L2 l : List Char} {p e : Nat}
    (hL1ne : L1 ≠ [])
    (h1 : L1 <+: l.drop p)
    (h2 : ∃ q, e = q + L2.length ∧ p + L1.length + 1 ≤ q ∧ L2 <+: l.drop q ∧
      ∀ j, p + L1.length + 1 ≤ j → j < q → ¬ L2 <+: l.drop j)
    (h3 : ∀ j, j < p → ¬ matchAt L1 L2 l j) :
    regexScanAux L1 L2 l = some (p, e) := by
  induction l generalizing p e with
  | nil =>
    rw [List.drop_nil] at h1
    exact absurd (List.prefix_nil.1 h1) hL1ne
  | cons c rest ih =>
    rcases h2 with ⟨q, he, hq1, hq2, hq3⟩
    rw [regexScanAux]
    cases p with
    | zero =>
      have hb : L1.isPrefixOf (c :: rest) = true :=
        List.isPrefixOf_iff_prefix.2 (by simpa using h1)
      rw [if_pos hb]
      have hF : pyFind (c :: rest) L2 (L1.length + 1) = some q :=
        pyFind_some_iff.2 ⟨by omega, hq2, fun j hj1 hj2 => hq3 j (by omega) hj2⟩
      rw [hF, he]
    | succ p =>
      have h0 := h3 0 (by omega)
      have hq' : q ≠ 0 := by omega
      cases q with
      | zero => omega
      | succ q =>
        have he' : e = q + L2.length + 1 := by omega
        have hrec : regexScanAux L1 L2 rest = some (p, q + L2.length) := by
          refine ih (by simpa using h1)
            ⟨q, rfl, by omega, by simpa using hq2, ?_⟩ ?_
          · intro j hj1 hj2 hc
            exact hq3 (j + 1) (by omega) (by omega) (by simpa using hc)
          · intro j hj ⟨ha, q', hq'1, hq'2⟩
            exact h3 (j + 1) (by omega)
              ⟨by simpa using ha, q' + 1, by omega, by simpa using hq'2⟩
        by_cases hL1h : L1.isPrefixOf (c :: rest)
        · rw [if_pos hL1h]
          have hF : pyFind (c :: rest) L2 (L1.length + 1) = none := by
            rw [pyFind_none_iff]
            intro j hj hc
            exact h0 ⟨List.isPrefixOf_iff_prefix.1 hL1h, j, by omega, hc⟩
          rw [hF, hrec]
          simp [he']
        · rw [if_neg hL1h, hrec]
          simp [he']

theorem prefix_drop_getElem {pat t : List Char} {i k : Nat}
    (h : pat <+: t.drop i) (hk : k < pat.length) :
    t[i + k]? = pat[k]? := by
  rcases h with ⟨s, hs⟩
  rw [← List.getElem?_drop, ← hs, List.getElem?_append_left hk]

theorem locate_spec {t config_id : List Char} {cs n : Nat}
    (h : locate t config_id = some (cs, n)) :
    ∃ p mEnd bs_start,
      regexSearch t config_id = some (p, mEnd) ∧
      pyFind t bsMarker mEnd = some bs_start ∧
      pyFind t bsClose bs_start = some n ∧
      cs = bs_start + bsMarker.length := by
  unfold locate at h
  split at h
  · exact absurd h (by simp)
  · rename_i p mEnd hr
    split at h
    · exact absurd h (by simp)
    · rename_i bs_start hm
      split at h
      · exact absurd h (by simp)
      · rename_i bs_end hc
        injection h with h
        injection h with h1 h2
        subst h1
        subst h2
        exact ⟨p, mEnd, bs_start, hr, hm, hc, rfl⟩

theorem locate_close {t config_id : List Char} {cs n : Nat}
    (h : locate t config_id = some (cs, n)) : bsClose <+: t.drop n := by
  rcases locate_spec h with ⟨p, mEnd, bs_start, _, _, hc, _⟩
  exact (pyFind_some_iff.1 hc).2.1

theorem locate_n_lt {t config_id : List Char} {cs n : Nat}
    (h : locate t config_id = some (cs, n)) : n < t.length := by
  have hpre := locate_close h
  have hne : t.drop n ≠ [] := by
    intro hnil
    rw [hnil] at hpre
    have : bsClose = [] := List.prefix_nil.1 hpre
    exact absurd this (by decide)
  exact List.length_lt_of_drop_ne_nil hne

theorem locate_cs_le {t config_id : List Char} {cs n : Nat}
    (h : locate t config_id = some (cs, n)) : cs ≤ n := by
  rcases locate_spec h with ⟨p, mEnd, bs_start, _, hm, hc, hcs⟩
  rcases pyFind_some_iff.1 hm with ⟨_, hmark, _⟩
  rcases pyFind_some_iff.1 hc with ⟨hbn, hclose, _⟩
  subst hcs
  by_contra hlt
  push_neg at hlt
  have hk : n - bs_start < bsMarker.length := by
    have : bsMarker.length = 17 := by decide
    omega
  have h1 : t[bs_start + (n - bs_start)]? = bsMarker[n - bs_start]? :=
    prefix_drop_getElem hmark hk
  have h2 : t[n + 0]? = bsClose[0]? :=
    prefix_drop_getElem hclose (by decide)
  have hbsn : bs_start + (n - bs_start) = n + 0 := by omega
  rw [hbsn, h2] at h1
  have h3 : bsClose[0]? = some '\n' := by decide
  rw [h3] at h1
  have h4 : ∀ m, m < bsMarker.length → bsMarker[m]? ≠ some '\n' := by decide
  exact h4 (n - bs_start) hk h1.symm

theorem locate_cs_pos {t config_id : List Char} {cs n : Nat}
    (h : locate t config_id = some (cs, n)) : 0 < cs := by
  rcases locate_spec h with ⟨p, mEnd, bs_start, _, _, _, hcs⟩
  subst hcs
  have : bsMarker.length = 17 := by decide
  omega

theorem patchContent_shape (c : List Char) (sw ip : Bool) :
    ∃ ins, patchContent c sw ip = c ++ ins ∧
      (ins = [] ∨ ins = '\n' :: SWIFT_VERSION_LINE ∨
       ins = '\n' :: GENERATE_INFOPLIST_LINE ∨
       ins = ('\n' :: SWIFT_VERSION_LINE) ++ '\n' :: GENERATE_INFOPLIST_LINE) := by
  unfold patchContent
  by_cases h1 : (sw && !(containsSub "SWIFT_VERSION".toList c)) = true
  · rw [if_pos h1]
    by_cases h2 : (ip && !(containsSub "GENERATE_INFOPLIST_FILE".toList
        (c ++ '\n' :: SWIFT_VERSION_LINE))) = true
    · rw [if_pos h2]
      exact ⟨_, by rw [List.append_assoc], by simp⟩
    · rw [if_neg h2]
      exact ⟨_, rfl, by simp⟩
  · rw [if_neg h1]
    by_cases h2 : (ip && !(containsSub "GENERATE_INFOPLIST_FILE".toList c)) = true
    · rw [if_pos h2]
      exact ⟨_, rfl, by simp⟩
    · rw [if_neg h2]
      exact ⟨[], by simp, by simp⟩

theorem patch_block_eq_of_locate {t config_id : List Char} {cs n : Nat}
    (h : locate t config_id = some (cs, n)) (sw ip : Bool) :
    patch_block t config_id sw ip =
      t.take cs ++ patchContent ((t.take n).drop cs) sw ip ++ t.drop n := by
  unfold patch_block
  rw [h]

theorem patch_block_insert {t config_id : List Char} {cs n : Nat}
    (h : locate t config_id = some (cs, n)) (sw ip : Bool) :
    ∃ ins, patch_block t config_id sw ip = insertAt t n ins ∧
      (ins = [] ∨ ins = '\n' :: SWIFT_VERSION_LINE ∨
       ins = '\n' :: GENERATE_INFOPLIST_LINE ∨
       ins = ('\n' :: SWIFT_VERSION_LINE) ++ '\n' :: GENERATE_INFOPLIST_LINE) := by
  rcases patchContent_shape ((t.take n).drop cs) sw ip with ⟨ins, hshape, hins⟩
  refine ⟨ins, ?_, hins⟩
  rw [patch_block_eq_of_locate h, hshape]
  have hcs := locate_cs_le h
  have h1 : (t.take n).take cs = t.take cs := by
    rw [List.take_take, Nat.min_eq_left hcs]
  unfold insertAt
  calc t.take cs ++ ((t.take n).drop cs ++ ins) ++ t.drop n
      = ((t.take n).take cs ++ (t.take n).drop cs) ++ ins ++ t.drop n := by
        rw [h1]; simp [List.append_assoc]
    _ = t.take n ++ ins ++ t.drop n := by rw [List.take_append_drop]

/- ===================== Concrete inputs for the claims ==================== -/

/-- A text whose first block (`AAAA`) contains no `buildSettings = {` marker,
followed by a second block (`BBBB`) that does. -/
def tCross : List Char :=
  "\n\t\tAAAA /* a */ = \x7b\n\t\t\x7d;\n\t\tBBBB /* b */ = \x7b\n\t\t\tbuildSettings = \x7b\n\t\t\t\tX = 1;\n\t\t\t\x7d;\n\t\t\x7d;\n".toList

/-- A project text containing exactly one of the configuration blocks of the
fixed table (`Project Debug`), lacking `SWIFT_VERSION`. -/
def tSingle : List Char :=
  "h\n\t\tF41FD0242E2A467000909132 /* Debug */ = \x7b\n\t\t\tbuildSettings = \x7b\n\t\t\t\tA = 1;\n\t\t\t\x7d;\n\t\t\x7d;\n".toList

/- ===================== Claim C10 ========================================= -/

/-- C10: for every input text, block identifier and flags, `patch_block`
either returns the input unchanged or returns the input with one of the two
fixed setting lines (each preceded by a newline), or both in order, inserted
at a single interior position; the prefix before the insertion point and the
suffix from the region terminator onward are byte-for-byte preserved, and the
output is never shorter than the input. -/
theorem patch_block_insertion_shape (t config_id : List Char) (sw ip : Bool) :
    (patch_block t config_id sw ip = t ∨
      ∃ n ins,
        (ins = '\n' :: SWIFT_VERSION_LINE ∨ ins = '\n' :: GENERATE_INFOPLIST_LINE ∨
          ins = ('\n' :: SWIFT_VERSION_LINE) ++ '\n' :: GENERATE_INFOPLIST_LINE) ∧
        patch_block t config_id sw ip = t.take n ++ ins ++ t.drop n ∧
        0 < n ∧ n < t.length) ∧
    t.length ≤ (patch_block t config_id sw ip).length := by
  cases hloc : locate t config_id with
  | none =>
    unfold patch_block
    rw [hloc]
    exact ⟨Or.inl rfl, le_refl _⟩
  | some csn =>
    rcases csn with ⟨cs, n⟩
    rcases patch_block_insert hloc sw ip with ⟨ins, heq, hins⟩
    have hn_lt := locate_n_lt hloc
    have hcs := locate_cs_le hloc
    have hcs_pos := locate_cs_pos hloc
    have hn_pos : 0 < n := lt_of_lt_of_le hcs_pos hcs
    have hlen : t.length ≤ (patch_block t config_id sw ip).length := by
      rw [heq]
      unfold insertAt
      rw [List.length_append, List.length_append, List.length_take, List.length_drop,
        Nat.min_eq_left (Nat.le_of_lt hn_lt)]
      omega
    refine ⟨?_, hlen⟩
    rcases hins with rfl | h
    · left
      rw [heq]
      unfold insertAt
      rw [List.append_nil, List.take_append_drop]
    · right
      exact ⟨n, ins, h, heq, hn_pos, hn_lt⟩

/- ===================== Claim C2 ========================================== -/

/-- C2 (code bug evidence): the first block of `tCross` (its first 24 bytes,
from its opening line through its closing `};`) contains no
`buildSettings = {` marker, yet `patch_block` applied for that block's
identifier does not return the text unchanged: it inserts the
`SWIFT_VERSION` line at position 75, inside the settings region of the later
`BBBB` block, because `text.find("buildSettings = {", m.end())` scans to the
end of the text instead of stopping at the block boundary. -/
theorem patch_block_crosses_into_next_block :
    containsSub bsMarker (tCross.take 24) = false ∧
    locate tCross "AAAA".toList = some (64, 75) ∧
    patch_block tCross "AAAA".toList true false =
      insertAt tCross 75 ('\n' :: SWIFT_VERSION_LINE) ∧
    patch_block tCross "AAAA".toList true false ≠ tCross := by decide

/- ===================== Claim C3 ========================================== -/

/-- C3 (counterexample): on `tSingle` the driver changes the text (only the
`Project Debug` block exists; every other identifier does not even occur in
the text, so no other block can have received settings), yet the printed
report contains a line for `Project Release`.  The report therefore does not
list exactly the blocks that actually received settings. -/
theorem reportLines_lists_unmodified_block_cex :
    applyAll tSingle ≠ tSingle ∧
    containsSub "F41FD0252E2A467000909132".toList tSingle = false ∧
    (" - Project Release (F41FD0252E2A467000909132)").toList ∈ reportLines tSingle := by
  decide

/-- C3 (amended): whenever the final text differs from the original, the
report printed by the driver is the line `Patched:` followed by one line per
entry of the fixed identifier table — every configured block name and id,
regardless of which blocks were actually modified — and the settings that
were inserted are not reported. -/
theorem reportLines_all_configs_of_changed (t : List Char)
    (h : applyAll t ≠ t) :
    reportLines t = "Patched:".toList ::
      CONFIGS.map (fun e => " - ".toList ++ e.2.1 ++ " (".toList ++ e.1 ++ ")".toList) := by
  have h' : ¬((applyAll t == t) = true) := by
    simpa [beq_iff_eq] using h
  unfold reportLines
  rw [if_neg h']

/-- Witness for `reportLines_all_configs_of_changed` at the concrete input
`tSingle`. -/
theorem reportLines_all_configs_of_changed_witness :
    applyAll tSingle ≠ tSingle ∧
    reportLines tSingle = "Patched:".toList ::
      CONFIGS.map (fun e => " - ".toList ++ e.2.1 ++ " (".toList ++ e.1 ++ ")".toList) :=
  ⟨by decide, reportLines_all_configs_of_changed tSingle (by decide)⟩

/- ===================== Claim C8 ========================================== -/

/-- C8: the line filter of `rewritePaths` drops a line exactly when its
whitespace-trimmed form equals one of the two stale entries
`Frameworks/llama_macos.xcframework,` / `Frameworks/llama_ios.xcframework,`;
concretely, a line trimming to the iOS stale entry is removed while the
superstring line `  Frameworks/llama_ios.xcframework_extra,` is kept. -/
theorem keepLine_exact_match_deletion :
    (∀ l : List Char, keepLine l = true ↔
      (pyStrip l ≠ staleMac ∧ pyStrip l ≠ staleIos)) ∧
    rewritePaths "keep1\n  Frameworks/llama_ios.xcframework,\nkeep2".toList =
      "keep1\nkeep2".toList ∧
    rewritePaths "keep1\n  Frameworks/llama_ios.xcframework_extra,\nkeep2".toList =
      "keep1\n  Frameworks/llama_ios.xcframework_extra,\nkeep2".toList := by
  refine ⟨?_, by decide, by decide⟩
  intro l
  simp [keepLine, not_or]

/- ===================== Counterexamples for C1, C5, C9 ==================== -/

/-- C1 (counterexample): the input `"a\n"` contains no legacy path at all and
no stale line, yet `rewritePaths` returns `"a"`, which is not byte-identical
to the input — the final line terminator is dropped by the
split/filter/join pipeline. -/
theorem rewritePaths_not_byte_identical_cex :
    containsSub "Frameworks/llama_macos.xcframework".toList "a\n".toList = false ∧
    containsSub "Frameworks/llama_ios.xcframework".toList "a\n".toList = false ∧
    (splitlines "a\n".toList).all keepLine = true ∧
    rewritePaths "a\n".toList ≠ "a\n".toList := by decide

/-- C5 (counterexample): `rewritePaths` is not idempotent: on `"\n\n"` the
first run yields `"\n"` and the second run yields `""`. -/
theorem rewritePaths_not_idempotent_cex :
    rewritePaths (rewritePaths "\n\n".toList) ≠ rewritePaths "\n\n".toList := by
  decide

/-- C9 (counterexample): the output of `rewritePaths` can end with a line
terminator: on `"a\n\n"` the output is `"a\n"`. -/
theorem rewritePaths_trailing_newline_cex :
    (rewritePaths "a\n\n".toList).getLast? = some '\n' := by decide

/- ===================== subScan equations ================================= -/

theorem tryMatch_length {name s ws v : List Char}
    (h : tryMatch name s = some (ws, v)) : v.length < s.length := by
  unfold tryMatch at h
  by_cases hp : (fwOld name).isPrefixOf s
  · rw [if_pos hp] at h
    dsimp only at h
    have hpre := List.isPrefixOf_iff_prefix.1 hp
    have hlen : (fwOld name).length ≤ s.length := hpre.length_le
    have hfw : 0 < (fwOld name).length := by
      unfold fwOld
      simp
    split at h
    · rename_i v' heq
      injection h with h
      injection h with h1 h2
      subst h1
      subst h2
      have hlen1 := congrArg List.length heq
      rw [List.length_drop, List.length_drop] at hlen1
      simp only [List.length_cons] at hlen1
      omega
    · exact absurd h (by simp)
  · rw [if_neg hp] at h
    exact absurd h (by simp)

theorem subScanF_nil (name : List Char) (f : Nat) (b : Bool) :
    subScanF name f b [] = [] := by
  cases f <;> rfl

theorem subScanF_congr (name : List Char) :
    ∀ (f g : Nat) (b : Bool) (s : List Char), s.length ≤ f → s.length ≤ g →
      subScanF name f b s = subScanF name g b s := by
  intro f
  induction f with
  | zero =>
    intro g b s h1 _
    have hs : s = [] := List.length_eq_zero.1 (Nat.le_zero.1 h1)
    subst hs
    rw [subScanF_nil, subScanF_nil]
  | succ f ih =>
    intro g b s h1 h2
    cases s with
    | nil => rw [subScanF_nil, subScanF_nil]
    | cons c rest =>
      cases g with
      | zero => simp at h2
      | succ g =>
        show (if b then c :: subScanF name f (isWordChar c) rest
              else match tryMatch name (c :: rest) with
                | some (ws, v) => fwNew name ++ ws ++ '=' :: subScanF name f false v
                | none => c :: subScanF name f (isWordChar c) rest) =
             (if b then c :: subScanF name g (isWordChar c) rest
              else match tryMatch name (c :: rest) with
                | some (ws, v) => fwNew name ++ ws ++ '=' :: subScanF name g false v
                | none => c :: subScanF name g (isWordChar c) rest)
        have hrest : rest.length ≤ f := by
          simp only [List.length_cons] at h1
          omega
        have hrest' : rest.length ≤ g := by
          simp only [List.length_cons] at h2
          omega
        cases b with
        | true => simp only [if_true, ih g (isWordChar c) rest hrest hrest']
        | false =>
          simp only [Bool.false_eq_true, if_false]
          cases hm : tryMatch name (c :: rest) with
          | none => simp only [ih g (isWordChar c) rest hrest hrest']
          | some wv =>
            rcases wv with ⟨ws, v⟩
            have hv : v.length < (c :: rest).length := tryMatch_length hm
            simp only [List.length_cons] at hv
            simp only [ih g false v (by omega) (by omega)]

theorem subScan_nil (name : List Char) (b : Bool) : subScan name b [] = [] := rfl

theorem subScan_cons_true (name : List Char) (c : Char) (rest : List Char) :
    subScan name true (c :: rest) = c :: subScan name (isWordChar c) rest := by
  unfold subScan
  show c :: subScanF name rest.length (isWordChar c) rest = _
  rfl

theorem subScan_cons_nomatch {name : List Char} {c : Char} {rest : List Char}
    (hm : tryMatch name (c :: rest) = none) :
    subScan name false (c :: rest) = c :: subScan name (isWordChar c) rest := by
  unfold subScan
  show (match tryMatch name (c :: rest) with
        | some (ws, v) => fwNew name ++ ws ++ '=' :: subScanF name rest.length false v
        | none => c :: subScanF name rest.length (isWordChar c) rest) = _
  rw [hm]

theorem subScan_cons_match {name : List Char} {c : Char} {rest ws v : List Char}
    (hm : tryMatch name (c :: rest) = some (ws, v)) :
    subScan name false (c :: rest) = fwNew name ++ ws ++ '=' :: subScan name false v := by
  unfold subScan
  show (match tryMatch name (c :: rest) with
        | some (ws, v) => fwNew name ++ ws ++ '=' :: subScanF name rest.length false v
        | none => c :: subScanF name rest.length (isWordChar c) rest) = _
  rw [hm]
  dsimp only
  have hv : v.length < (c :: rest).length := tryMatch_length hm
  simp only [List.length_cons] at hv
  rw [subScanF_congr name rest.length v.length false v (by omega) (le_refl _)]

/-- Does the substitution's pattern match anywhere in `s`, scanning with the
incoming previous-char-is-word-char state `b`? -/
def hasMatchScan (name : List Char) : Bool → List Char → Bool
  | _, [] => false
  | b, c :: rest =>
    (!b && (tryMatch name (c :: rest)).isSome) || hasMatchScan name (isWordChar c) rest

theorem subScan_eq_of_no_match {name : List Char} :
    ∀ {b : Bool} {s : List Char}, hasMatchScan name b s = false → subScan name b s = s := by
  intro b s
  induction s generalizing b with
  | nil => intro _; exact subScan_nil name b
  | cons c rest ih =>
    intro h
    rw [hasMatchScan] at h
    rw [Bool.or_eq_false_iff] at h
    rcases h with ⟨h1, h2⟩
    cases b with
    | true => rw [subScan_cons_true, ih h2]
    | false =>
      simp only [Bool.not_false, Bool.true_and] at h1
      have h1' : tryMatch name (c :: rest) = none := by
        cases hm : tryMatch name (c :: rest) with
        | none => rfl
        | some wv => rw [hm] at h1; exact absurd h1 (by simp)
      rw [subScan_cons_nomatch h1', ih h2]

/- ===================== splitlines / joinNL lemmas ======================== -/

theorem joinNL_cons_of_ne {x : List Char} {L : List (List Char)} (h : L ≠ []) :
    joinNL (x :: L) = x ++ '\n' :: joinNL L := by
  cases L with
  | nil => exact absurd rfl h
  | cons y ys => rfl



theorem afterBreak_length (c : Char) (rest : List Char) :
    (afterBreak c rest).length ≤ rest.length := by
  unfold afterBreak
  split
  · split
    · simp
    · exact le_refl _
  · exact le_refl _

theorem afterBreak_of_ne_cr {c : Char} (h : c ≠ '\r') (rest : List Char) :
    afterBreak c rest = rest := by
  unfold afterBreak
  rw [if_neg h]

theorem splitlinesF_ne_nil :
    ∀ (fuel : Nat) (acc s : List Char), splitlinesF fuel acc s ≠ [] := by
  intro fuel
  induction fuel with
  | zero => intro acc s; simp [splitlinesF]
  | succ fuel ih =>
    intro acc s
    cases s with
    | nil => simp [splitlinesF]
    | cons c rest =>
      show (if isLineBreak c then
              acc.reverse ::
                (if (afterBreak c rest).isEmpty then []
                 else splitlinesF fuel [] (afterBreak c rest))
            else splitlinesF fuel (c :: acc) rest) ≠ []
      split
      · simp
      · exact ih (c :: acc) rest

theorem splitlinesF_no_break :
    ∀ (fuel : Nat) (s acc : List Char), s.length ≤ fuel →
      (∀ c ∈ acc, isLineBreak c = false) →
      ∀ l ∈ splitlinesF fuel acc s, ∀ c ∈ l, isLineBreak c = false := by
  intro fuel
  induction fuel with
  | zero =>
    intro s acc h hacc l hl c hc
    simp only [splitlinesF, List.mem_singleton] at hl
    subst hl
    exact hacc c (List.mem_reverse.1 hc)
  | succ fuel ih =>
    intro s acc h hacc
    cases s with
    | nil =>
      intro l hl c hc
      simp only [splitlinesF, List.mem_singleton] at hl
      subst hl
      exact hacc c (List.mem_reverse.1 hc)
    | cons c0 rest =>
      simp only [List.length_cons] at h
      show ∀ l ∈ (if isLineBreak c0 then
              acc.reverse ::
                (if (afterBreak c0 rest).isEmpty then []
                 else splitlinesF fuel [] (afterBreak c0 rest))
            else splitlinesF fuel (c0 :: acc) rest), ∀ c ∈ l, isLineBreak c = false
      split
      · intro l hl c hc
        rcases List.mem_cons.1 hl with rfl | hl2
        · exact hacc c (List.mem_reverse.1 hc)
        · split at hl2
          · simp at hl2
          · have hlen : (afterBreak c0 rest).length ≤ fuel := by
              have := afterBreak_length c0 rest
              omega
            exact ih (afterBreak c0 rest) [] hlen (by simp) l hl2 c hc
      · rename_i hbr
        intro l hl c hc
        refine ih rest (c0 :: acc) (by omega) ?_ l hl c hc
        intro c' hc'
        rcases List.mem_cons.1 hc' with rfl | hc'2
        · exact Bool.not_eq_true _ ▸ (by simpa using hbr)
        · exact hacc c' hc'2

theorem splitlines_no_break {s : List Char} :
    ∀ l ∈ splitlines s, ∀ c ∈ l, isLineBreak c = false := by
  cases s with
  | nil => simp [splitlines]
  | cons c rest =>
    exact splitlinesF_no_break (c :: rest).length (c :: rest) [] (le_refl _) (by simp)

theorem joinNL_splitlinesF :
    ∀ (fuel : Nat) (s acc : List Char), s.length ≤ fuel →
      (∀ c ∈ s, isLineBreak c = true → c = '\n') →
      s.getLast? ≠ some '\n' →
      joinNL (splitlinesF fuel acc s) = acc.reverse ++ s := by
  intro fuel
  induction fuel with
  | zero =>
    intro s acc h _ _
    have hs : s = [] := List.length_eq_zero.1 (Nat.le_zero.1 h)
    subst hs
    simp [splitlinesF, joinNL]
  | succ fuel ih =>
    intro s acc h honly hlast
    cases s with
    | nil => simp [splitlinesF, joinNL]
    | cons c0 rest =>
      simp only [List.length_cons] at h
      show joinNL (if isLineBreak c0 then
              acc.reverse ::
                (if (afterBreak c0 rest).isEmpty then []
                 else splitlinesF fuel [] (afterBreak c0 rest))
            else splitlinesF fuel (c0 :: acc) rest) = acc.reverse ++ c0 :: rest
      by_cases hbr : isLineBreak c0 = true
      · have hc0 : c0 = '\n' := honly c0 (by simp) hbr
        subst hc0
        rw [if_pos hbr]
        have hab : afterBreak '\n' rest = rest := afterBreak_of_ne_cr (by decide) rest
        rw [hab]
        cases rest with
        | nil => exact absurd rfl hlast
        | cons r1 rest2 =>
          rw [if_neg (by simp)]
          rw [joinNL_cons_of_ne (splitlinesF_ne_nil fuel [] (r1 :: rest2))]
          have hgl : ('\n' :: r1 :: rest2).getLast? = (r1 :: rest2).getLast? :=
            List.getLast?_cons_cons
          have hrec := ih (r1 :: rest2) [] (by omega)
            (fun c hc hb => honly c (by simp [hc]) hb)
            (by rw [← hgl]; exact hlast)
          rw [hrec]
          simp
      · rw [if_neg hbr]
        have hrec := ih rest (c0 :: acc) (by omega)
          (fun c hc hb => honly c (by simp [hc]) hb) ?_
        · rw [hrec, List.reverse_cons]
          simp
        · cases rest with
          | nil => simp
          | cons r1 rest2 =>
            have hgl : (c0 :: r1 :: rest2).getLast? = (r1 :: rest2).getLast? :=
              List.getLast?_cons_cons
            rw [← hgl]
            exact hlast

theorem joinNL_splitlines_id {t : List Char}
    (h4 : ∀ c ∈ t, isLineBreak c = true → c = '\n')
    (h5 : t.getLast? ≠ some '\n') : joinNL (splitlines t) = t := by
  cases t with
  | nil => rfl
  | cons c rest =>
    show joinNL (splitlinesF (c :: rest).length [] (c :: rest)) = c :: rest
    rw [joinNL_splitlinesF (c :: rest).length (c :: rest) [] (le_refl _) h4 h5]
    rfl

/-- Core identity: when the substitutions find no match, no line is stale,
all line terminators are `'\n'` and the text does not end with one, the whole
`rewritePaths` pipeline is the identity. -/
theorem rewritePaths_eq_self_core {t : List Char}
    (h1 : hasMatchScan "llama_macos".toList false t = false)
    (h2 : hasMatchScan "llama_ios".toList false t = false)
    (h3 : ∀ l ∈ splitlines t, keepLine l = true)
    (h4 : ∀ c ∈ t, isLineBreak c = true → c = '\n')
    (h5 : t.getLast? ≠ some '\n') :
    rewritePaths t = t := by
  unfold rewritePaths keepLines
  rw [subScan_eq_of_no_match h1, subScan_eq_of_no_match h2]
  rw [List.filter_eq_self.2 h3]
  exact joinNL_splitlines_id h4 h5

theorem mem_joinNL {c : Char} :
    ∀ {ls : List (List Char)}, c ∈ joinNL ls → (∃ l ∈ ls, c ∈ l) ∨ c = '\n' := by
  intro ls
  induction ls with
  | nil => intro h; simp [joinNL] at h
  | cons l ls2 ih =>
    cases ls2 with
    | nil =>
      intro h
      exact Or.inl ⟨l, by simp, by simpa [joinNL] using h⟩
    | cons l2 ls3 =>
      intro h
      rw [joinNL_cons_of_ne (by simp)] at h
      rcases List.mem_append.1 h with h | h
      · exact Or.inl ⟨l, by simp, h⟩
      · rcases List.mem_cons.1 h with rfl | h
        · exact Or.inr rfl
        · rcases ih h with ⟨l', hl', hc⟩ | rfl
          · exact Or.inl ⟨l', List.mem_cons_of_mem _ hl', hc⟩
          · exact Or.inr rfl

/-- Every line-break character in the output of `rewritePaths` is `'\n'`. -/
theorem onlyNL_rewritePaths (t : List Char) :
    ∀ c ∈ rewritePaths t, isLineBreak c = true → c = '\n' := by
  intro c hc hbreak
  unfold rewritePaths keepLines at hc
  rcases mem_joinNL hc with ⟨l, hl, hcl⟩ | rfl
  · have hl2 := List.mem_of_mem_filter hl
    have hnb := splitlines_no_break l hl2 c hcl
    rw [hnb] at hbreak
    exact absurd hbreak (by simp)
  · rfl

/- ===================== Claims C1 and C5 (amended) ======================== -/

/-- C1 (amended): for every input that contains no legacy-path occurrence in
assignment context and no stale list-entry line, and that moreover uses only
`'\n'` as line terminator and does not end with a line terminator,
`rewritePaths` returns its input byte-identical.  (The counterexample shows
the extra two premises are necessary: terminators are otherwise normalised
and a trailing one dropped.) -/
theorem rewritePaths_identity_of_clean (t : List Char)
    (h1 : hasMatchScan "llama_macos".toList false t = false)
    (h2 : hasMatchScan "llama_ios".toList false t = false)
    (h3 : ∀ l ∈ splitlines t, keepLine l = true)
    (h4 : ∀ c ∈ t, isLineBreak c = true → c = '\n')
    (h5 : t.getLast? ≠ some '\n') :
    rewritePaths t = t :=
  rewritePaths_eq_self_core h1 h2 h3 h4 h5

/-- Witness for `rewritePaths_identity_of_clean` on a concrete clean input. -/
theorem rewritePaths_identity_of_clean_witness :
    rewritePaths "name = Frameworks/other.xcframework;\nkeep".toList =
      "name = Frameworks/other.xcframework;\nkeep".toList :=
  rewritePaths_identity_of_clean _ (by decide) (by decide) (by decide) (by decide)
    (by decide)

/-- C5 (amended): `rewritePaths` is idempotent on every input whose first-run
output contains no remaining legacy-path occurrence in assignment context, no
stale list-entry line, and does not end with `'\n'` — the second run then
returns the first run's output byte-identical.  (The counterexample shows the
unconditional claim fails.) -/
theorem rewritePaths_idempotent_of_stable_output (t : List Char)
    (h1 : hasMatchScan "llama_macos".toList false (rewritePaths t) = false)
    (h2 : hasMatchScan "llama_ios".toList false (rewritePaths t) = false)
    (h3 : ∀ l ∈ splitlines (rewritePaths t), keepLine l = true)
    (h5 : (rewritePaths t).getLast? ≠ some '\n') :
    rewritePaths (rewritePaths t) = rewritePaths t :=
  rewritePaths_eq_self_core h1 h2 h3 (onlyNL_rewritePaths t) h5

/-- Witness for `rewritePaths_idempotent_of_stable_output` at `"x\n"`. -/
theorem rewritePaths_idempotent_of_stable_output_witness :
    rewritePaths (rewritePaths "x\n".toList) = rewritePaths "x\n".toList :=
  rewritePaths_idempotent_of_stable_output _ (by decide) (by decide) (by decide)
    (by decide)

theorem joinNL_eq_nil_iff {ls : List (List Char)} :
    joinNL ls = [] ↔ (ls = [] ∨ ls = [[]]) := by
  cases ls with
  | nil => simp [joinNL]
  | cons l ls2 =>
    cases ls2 with
    | nil => simp [joinNL]
    | cons l2 ls3 =>
      rw [joinNL_cons_of_ne (by simp)]
      simp

theorem joinNL_getLast_iff :
    ∀ (ls : List (List Char)), (∀ l ∈ ls, ∀ c ∈ l, isLineBreak c = false) →
      ((joinNL ls).getLast? = some '\n' ↔
        2 ≤ ls.length ∧ ls.getLast? = some []) := by
  intro ls
  induction ls with
  | nil => intro _; simp [joinNL]
  | cons l ls2 ih =>
    intro hbf
    cases ls2 with
    | nil =>
      show l.getLast? = some '\n' ↔ _
      constructor
      · intro h
        have hmem : '\n' ∈ l := List.mem_of_mem_getLast? h
        have := hbf l (by simp) '\n' hmem
        simp [isLineBreak] at this
      · rintro ⟨h2, _⟩
        simp at h2
    | cons l2 ls3 =>
      rw [joinNL_cons_of_ne (by simp)]
      rw [List.getLast?_append_of_ne_nil _ (by simp)]
      have hbf2 : ∀ l' ∈ l2 :: ls3, ∀ c ∈ l', isLineBreak c = false :=
        fun l' hl' => hbf l' (List.mem_cons_of_mem _ hl')
      cases hJ : joinNL (l2 :: ls3) with
      | nil =>
        rcases joinNL_eq_nil_iff.1 hJ with h | h
        · exact absurd h (by simp)
        · obtain ⟨h1, h2⟩ : l2 = [] ∧ ls3 = [] := by
            injection h with ha hb
            exact ⟨ha, hb⟩
          subst h1
          subst h2
          simp
      | cons j js =>
        rw [List.getLast?_cons_cons, ← hJ, ih hbf2, List.getLast?_cons_cons]
        constructor
        · rintro ⟨hlen, hlast⟩
          exact ⟨by simp, hlast⟩
        · rintro ⟨-, hlast⟩
          refine ⟨?_, hlast⟩
          cases ls3 with
          | nil =>
            simp only [List.getLast?_singleton, Option.some_inj] at hlast
            subst hlast
            simp [joinNL] at hJ
          | cons l3 ls4 => simp

/-- C9 (amended): the output of `rewritePaths` contains no carriage-return
character — all line boundaries are rejoined with single `'\n'` — and it
ends with a line terminator exactly when at least two lines are kept and the
last kept line is empty (a single trailing terminator of the input is
dropped; two or more consecutive trailing terminators leave a final
`'\n'`). -/
theorem rewritePaths_no_carriage_return (t : List Char) :
    (∀ c ∈ rewritePaths t, c ≠ '\r') ∧
    ((rewritePaths t).getLast? = some '\n' ↔
      2 ≤ (keepLines t).length ∧ (keepLines t).getLast? = some []) := by
  constructor
  · intro c hc hcr
    subst hcr
    have := onlyNL_rewritePaths t '\r' hc (by decide)
    exact absurd this (by decide)
  · show (joinNL (keepLines t)).getLast? = some '\n' ↔ _
    apply joinNL_getLast_iff
    intro l hl
    exact splitlines_no_break l (List.mem_of_mem_filter hl)

/-- Witness for `rewritePaths_no_carriage_return`, discharging the reverse
implication of its final-newline characterisation at `"a\n\n"`. -/
theorem rewritePaths_no_carriage_return_witness :
    2 ≤ (keepLines "a\n\n".toList).length ∧
    (keepLines "a\n\n".toList).getLast? = some [] :=
  (rewritePaths_no_carriage_return "a\n\n".toList).2.1 (by decide)

/- ===================== Claim C7 apparatus ================================ -/

/-- Whether the character preceding the end of `u` is a word character, when
the character before `u` has word-status `b` (tracks the `\b` state of the
scanner across a prefix). -/
def endWord (b : Bool) (u : List Char) : Bool :=
  u.foldl (fun _ c => isWordChar c) b

/-- The scanner traverses `u` (followed by `rest`) without any match
starting inside `u`, entering with word-status `b`. -/
def scanClear (name : List Char) : Bool → List Char → List Char → Bool
  | _, [], _ => true
  | b, c :: u, rest =>
    (b || (tryMatch name (c :: (u ++ rest))).isNone) &&
      scanClear name (isWordChar c) u rest

theorem takeWhile_ws_eq {ws v : List Char} (h : ws.all pyIsSpace = true) :
    (ws ++ '=' :: v).takeWhile pyIsSpace = ws := by
  induction ws with
  | nil =>
    show ('=' :: v).takeWhile pyIsSpace = []
    rw [List.takeWhile_cons]
    rw [if_neg (by decide)]
  | cons c ws' ih =>
    rw [List.all_cons, Bool.and_eq_true] at h
    rw [List.cons_append, List.takeWhile_cons, if_pos h.1, ih h.2]

theorem tryMatch_at_occurrence {name ws v : List Char}
    (hws : ws.all pyIsSpace = true) :
    tryMatch name (fwOld name ++ (ws ++ '=' :: v)) = some (ws, v) := by
  unfold tryMatch
  rw [if_pos (List.isPrefixOf_iff_prefix.2 (List.prefix_append _ _))]
  dsimp only
  rw [List.drop_left, takeWhile_ws_eq hws, List.drop_left]
  rfl

theorem subScan_match_head {name s ws v : List Char} (hne : s ≠ [])
    (hm : tryMatch name s = some (ws, v)) :
    subScan name false s = fwNew name ++ ws ++ '=' :: subScan name false v := by
  cases s with
  | nil => exact absurd rfl hne
  | cons c rest => exact subScan_cons_match hm

theorem subScan_append_of_clear {name : List Char} :
    ∀ (u : List Char) (b : Bool) (rest : List Char),
      scanClear name b u rest = true →
      subScan name b (u ++ rest) = u ++ subScan name (endWord b u) rest := by
  intro u
  induction u with
  | nil =>
    intro b rest _
    simp [endWord]
  | cons c u' ih =>
    intro b rest hclear
    simp only [scanClear, Bool.and_eq_true] at hclear
    obtain ⟨h1, h2⟩ := hclear
    have hEnd : endWord b (c :: u') = endWord (isWordChar c) u' := rfl
    cases b with
    | true =>
      rw [List.cons_append, subScan_cons_true, ih (isWordChar c) rest h2, hEnd,
        List.cons_append]
    | false =>
      simp only [Bool.false_or, Option.isNone_iff_eq_none] at h1
      rw [List.cons_append, subScan_cons_nomatch h1, ih (isWordChar c) rest h2, hEnd]
      rfl

/- ===================== Claim C7 ========================================== -/

/-- C7: the path substitution is exactly scoped.  First part: an occurrence
of the old path `Frameworks/<name>.xcframework` that starts at a word
boundary and is immediately followed by optional whitespace and `'='` is
rewritten to the `Frameworks/xcframeworks/`-prefixed path, with the
whitespace-and-`'='` trailing context preserved byte-for-byte (the prefix
`u` before it is preserved as well).  Second part: a text in which the
pattern matches nowhere — in particular any text whose old-path occurrences
all lack the trailing assignment context or a left word boundary — is
returned byte-for-byte unchanged. -/
theorem subScan_scoped_substitution :
    (∀ (name u ws v : List Char) (b : Bool),
      scanClear name b u (fwOld name ++ (ws ++ '=' :: v)) = true →
      endWord b u = false →
      ws.all pyIsSpace = true →
      subScan name b (u ++ (fwOld name ++ (ws ++ '=' :: v))) =
        u ++ (fwNew name ++ (ws ++ '=' :: subScan name false v))) ∧
    (∀ (name : List Char) (b : Bool) (s : List Char),
      hasMatchScan name b s = false → subScan name b s = s) := by
  constructor
  · intro name u ws v b hclear hend hws
    rw [subScan_append_of_clear u b _ hclear, hend]
    rw [subScan_match_head (by simp [fwOld]) (tryMatch_at_occurrence hws)]
    simp [List.append_assoc]
  · intro name b s h
    exact subScan_eq_of_no_match h

/-- Witness for `subScan_scoped_substitution`: a concrete scoped rewrite
(with `u = "x ("`, tab whitespace and trailing `" 1;"`) and a concrete
unchanged text. -/
theorem subScan_scoped_substitution_witness :
    subScan "llama_macos".toList false
        ("x (".toList ++ (fwOld "llama_macos".toList ++ ("\t".toList ++ '=' :: " 1;".toList))) =
      "x (".toList ++ (fwNew "llama_macos".toList ++
        ("\t".toList ++ '=' :: subScan "llama_macos".toList false " 1;".toList)) ∧
    subScan "llama_ios".toList false "see Frameworks/llama_ios.xcframework here".toList =
      "see Frameworks/llama_ios.xcframework here".toList :=
  ⟨subScan_scoped_substitution.1 "llama_macos".toList "x (".toList "\t".toList
      " 1;".toList false (by decide) (by decide) (by decide),
   subScan_scoped_substitution.2 "llama_ios".toList false
      "see Frameworks/llama_ios.xcframework here".toList (by decide)⟩

/- ===================== Claim C6 apparatus ================================ -/

theorem countOcc_eq_zero_of_not_contains {pat s : List Char}
    (h : containsSub pat s = false) : countOcc pat s = 0 := by
  induction s with
  | nil => rfl
  | cons c rest ih =>
    simp only [containsSub, Bool.or_eq_false_iff] at h
    simp only [countOcc, h.1, if_false, ih h.2]
    simp

theorem prefix_of_append_of_le {pat l1 l2 : List Char}
    (h : pat <+: l1 ++ l2) (hlen : pat.length ≤ l1.length) : pat <+: l1 := by
  rw [List.prefix_iff_eq_take] at h ⊢
  rwa [List.take_append_of_le_length hlen] at h

theorem prefix_drop_of_append_span {pat l1 l2 : List Char}
    (h : pat <+: l1 ++ l2) (hlen : l1.length ≤ pat.length) :
    pat.drop l1.length <+: l2 := by
  rcases h with ⟨s, hs⟩
  refine ⟨s, ?_⟩
  have := congrArg (List.drop l1.length) hs
  rwa [List.drop_append_of_le_length hlen, List.drop_left] at this

theorem countOcc_append_no_span (pat ys : List Char)
    (hspan : ∀ k, k < pat.length → 0 < k → ¬ pat.drop k <+: ys) :
    ∀ xs, countOcc pat (xs ++ ys) = countOcc pat xs + countOcc pat ys := by
  intro xs
  induction xs with
  | nil => simp [countOcc]
  | cons c xs' ih =>
    rw [List.cons_append]
    simp only [countOcc]
    rw [ih]
    have heq : pat.isPrefixOf (c :: (xs' ++ ys)) = pat.isPrefixOf (c :: xs') := by
      by_cases hp : pat <+: c :: (xs' ++ ys)
      · have hp2 : pat <+: (c :: xs') ++ ys := by
          rw [List.cons_append]
          exact hp
        have hp' : pat <+: c :: xs' := by
          rcases le_or_lt pat.length (c :: xs').length with hle | hlt
          · exact prefix_of_append_of_le hp2 hle
          · exfalso
            have hk : (c :: xs').length < pat.length := hlt
            have hd : pat.drop (c :: xs').length <+: ys :=
              prefix_drop_of_append_span hp2 (by omega)
            exact hspan (c :: xs').length hk (by simp) hd
        rw [List.isPrefixOf_iff_prefix.2 hp, List.isPrefixOf_iff_prefix.2 hp']
      · have hp' : ¬ pat <+: c :: xs' := by
          intro hc
          apply hp
          rw [← List.cons_append]
          exact hc.trans (List.prefix_append _ _)
        have b1 : pat.isPrefixOf (c :: (xs' ++ ys)) = false := by
          by_contra hb
          exact hp (List.isPrefixOf_iff_prefix.1 (Bool.eq_true_of_not_eq_false hb))
        have b2 : pat.isPrefixOf (c :: xs') = false := by
          by_contra hb
          exact hp' (List.isPrefixOf_iff_prefix.1 (Bool.eq_true_of_not_eq_false hb))
        rw [b1, b2]
    rw [heq]
    omega

theorem patchContent_counts (c : List Char) (sw ip : Bool) :
    (containsSub "SWIFT_VERSION".toList c = true →
      countOcc "SWIFT_VERSION".toList (patchContent c sw ip) =
        countOcc "SWIFT_VERSION".toList c) ∧
    (containsSub "GENERATE_INFOPLIST_FILE".toList c = true →
      countOcc "GENERATE_INFOPLIST_FILE".toList (patchContent c sw ip) =
        countOcc "GENERATE_INFOPLIST_FILE".toList c) ∧
    countOcc "SWIFT_VERSION".toList (patchContent c sw ip) ≤
      max 1 (countOcc "SWIFT_VERSION".toList c) ∧
    countOcc "GENERATE_INFOPLIST_FILE".toList (patchContent c sw ip) ≤
      max 1 (countOcc "GENERATE_INFOPLIST_FILE".toList c) := by
  unfold patchContent
  by_cases h1 : (sw && !(containsSub "SWIFT_VERSION".toList c)) = true
  · rw [if_pos h1]
    rw [Bool.and_eq_true, Bool.not_eq_true'] at h1
    have hsw0 : countOcc "SWIFT_VERSION".toList c = 0 :=
      countOcc_eq_zero_of_not_contains h1.2
    by_cases h2 : (ip && !(containsSub "GENERATE_INFOPLIST_FILE".toList
        (c ++ '\n' :: SWIFT_VERSION_LINE))) = true
    · rw [if_pos h2]
      rw [Bool.and_eq_true, Bool.not_eq_true'] at h2
      have hgic : containsSub "GENERATE_INFOPLIST_FILE".toList c = false := by
        by_contra hb
        rw [containsSub_append_left ('\n' :: SWIFT_VERSION_LINE)
          (Bool.eq_true_of_not_eq_false hb)] at h2
        exact absurd h2.2 (by simp)
      have hgi0 : countOcc "GENERATE_INFOPLIST_FILE".toList c = 0 :=
        countOcc_eq_zero_of_not_contains hgic
      rw [List.append_assoc]
      rw [countOcc_append_no_span "SWIFT_VERSION".toList
        (('\n' :: SWIFT_VERSION_LINE) ++ '\n' :: GENERATE_INFOPLIST_LINE) (by decide) c]
      rw [countOcc_append_no_span "GENERATE_INFOPLIST_FILE".toList
        (('\n' :: SWIFT_VERSION_LINE) ++ '\n' :: GENERATE_INFOPLIST_LINE) (by decide) c]
      constructor
      · intro hc
        rw [hc] at h1
        exact absurd h1.2 (by simp)
      constructor
      · intro hc
        rw [hc] at hgic
        exact absurd hgic (by simp)
      constructor
      · rw [hsw0]
        have hc1 : countOcc "SWIFT_VERSION".toList
            (('\n' :: SWIFT_VERSION_LINE) ++ '\n' :: GENERATE_INFOPLIST_LINE) = 1 := by
          decide
        omega
      · rw [hgi0]
        have hc2 : countOcc "GENERATE_INFOPLIST_FILE".toList
            (('\n' :: SWIFT_VERSION_LINE) ++ '\n' :: GENERATE_INFOPLIST_LINE) = 1 := by
          decide
        omega
    · rw [if_neg h2]
      rw [countOcc_append_no_span "SWIFT_VERSION".toList
        ('\n' :: SWIFT_VERSION_LINE) (by decide) c]
      rw [countOcc_append_no_span "GENERATE_INFOPLIST_FILE".toList
        ('\n' :: SWIFT_VERSION_LINE) (by decide) c]
      constructor
      · intro hc
        rw [hc] at h1
        exact absurd h1.2 (by simp)
      constructor
      · intro _
        have : countOcc "GENERATE_INFOPLIST_FILE".toList ('\n' :: SWIFT_VERSION_LINE) = 0 := by
          decide
        omega
      constructor
      · rw [hsw0]
        have : countOcc "SWIFT_VERSION".toList ('\n' :: SWIFT_VERSION_LINE) = 1 := by
          decide
        omega
      · have : countOcc "GENERATE_INFOPLIST_FILE".toList ('\n' :: SWIFT_VERSION_LINE) = 0 := by
          decide
        omega
  · rw [if_neg h1]
    by_cases h2 : (ip && !(containsSub "GENERATE_INFOPLIST_FILE".toList c)) = true
    · rw [if_pos h2]
      rw [Bool.and_eq_true, Bool.not_eq_true'] at h2
      have hgi0 : countOcc "GENERATE_INFOPLIST_FILE".toList c = 0 :=
        countOcc_eq_zero_of_not_contains h2.2
      rw [countOcc_append_no_span "SWIFT_VERSION".toList
        ('\n' :: GENERATE_INFOPLIST_LINE) (by decide) c]
      rw [countOcc_append_no_span "GENERATE_INFOPLIST_FILE".toList
        ('\n' :: GENERATE_INFOPLIST_LINE) (by decide) c]
      constructor
      · intro _
        have : countOcc "SWIFT_VERSION".toList ('\n' :: GENERATE_INFOPLIST_LINE) = 0 := by
          decide
        omega
      constructor
      · intro hc
        rw [hc] at h2
        exact absurd h2.2 (by simp)
      constructor
      · have : countOcc "SWIFT_VERSION".toList ('\n' :: GENERATE_INFOPLIST_LINE) = 0 := by
          decide
        omega
      · rw [hgi0]
        have : countOcc "GENERATE_INFOPLIST_FILE".toList ('\n' :: GENERATE_INFOPLIST_LINE) = 1 := by
          decide
        omega
    · rw [if_neg h2]
      exact ⟨fun _ => rfl, fun _ => rfl, le_max_right _ _, le_max_right _ _⟩

/- ===================== Claim C6 ========================================== -/

/-- A settings region already containing both keys, for the C6 witness. -/
def tC6 : List Char :=
  "\n\t\tQQ /* q */ = \x7b buildSettings = \x7b\n\t\t\t\tSWIFT_VERSION = 5.0;\n\t\t\t\tGENERATE_INFOPLIST_FILE = YES;\n\t\t\t\x7d; rest".toList

/-- C6: when the block and its settings region are located, `patch_block`
rewrites exactly the region's inner content through `patchContent`, and for
each required key: if the key already occurs anywhere in the inner content
(substring check), its number of occurrences is unchanged — no second
occurrence is inserted — and in every case the patched content contains at
most `max 1 (original count)` occurrences of the key, so patching never
introduces a duplicate. -/
theorem patch_block_no_duplicate_key {t config_id : List Char} {cs n : Nat}
    (sw ip : Bool) (hloc : locate t config_id = some (cs, n)) :
    patch_block t config_id sw ip =
      t.take cs ++ patchContent ((t.take n).drop cs) sw ip ++ t.drop n ∧
    (containsSub "SWIFT_VERSION".toList ((t.take n).drop cs) = true →
      countOcc "SWIFT_VERSION".toList (patchContent ((t.take n).drop cs) sw ip) =
        countOcc "SWIFT_VERSION".toList ((t.take n).drop cs)) ∧
    (containsSub "GENERATE_INFOPLIST_FILE".toList ((t.take n).drop cs) = true →
      countOcc "GENERATE_INFOPLIST_FILE".toList (patchContent ((t.take n).drop cs) sw ip) =
        countOcc "GENERATE_INFOPLIST_FILE".toList ((t.take n).drop cs)) ∧
    countOcc "SWIFT_VERSION".toList (patchContent ((t.take n).drop cs) sw ip) ≤
      max 1 (countOcc "SWIFT_VERSION".toList ((t.take n).drop cs)) ∧
    countOcc "GENERATE_INFOPLIST_FILE".toList (patchContent ((t.take n).drop cs) sw ip) ≤
      max 1 (countOcc "GENERATE_INFOPLIST_FILE".toList ((t.take n).drop cs)) := by
  rcases patchContent_counts ((t.take n).drop cs) sw ip with ⟨h1, h2, h3, h4⟩
  exact ⟨patch_block_eq_of_locate hloc sw ip, h1, h2, h3, h4⟩

/-- Witness for `patch_block_no_duplicate_key` on `tC6`, whose settings
region already contains both keys: patching with both flags changes
neither key's occurrence count. -/
theorem patch_block_no_duplicate_key_witness :
    countOcc "SWIFT_VERSION".toList (patchContent ((tC6.take 95).drop 35) true true) =
      countOcc "SWIFT_VERSION".toList ((tC6.take 95).drop 35) ∧
    countOcc "GENERATE_INFOPLIST_FILE".toList
        (patchContent ((tC6.take 95).drop 35) true true) =
      countOcc "GENERATE_INFOPLIST_FILE".toList ((tC6.take 95).drop 35) :=
  ⟨(patch_block_no_duplicate_key true true
      (show locate tC6 "QQ".toList = some (35, 95) by decide)).2.1 (by decide),
   (patch_block_no_duplicate_key true true
      (show locate tC6 "QQ".toList = some (35, 95) by decide)).2.2.1 (by decide)⟩

/- ===================== Claim C4 apparatus: insertion stability =========== -/

theorem insertAt_drop_low {t ins : List Char} {n i m : Nat} (hn : n ≤ t.length)
    (him : i + m ≤ n) :
    ((insertAt t n ins).drop i).take m = (t.drop i).take m := by
  unfold insertAt
  rw [List.append_assoc]
  rw [List.drop_append_of_le_length (by rw [List.length_take]; omega)]
  rw [List.take_append_of_le_length
    (by rw [List.length_drop, List.length_take]; omega)]
  rw [List.drop_take, List.take_take, Nat.min_eq_left (by omega)]

theorem prefix_insertAt_low {t ins pat : List Char} {n i : Nat} (hn : n ≤ t.length)
    (h : i + pat.length ≤ n) :
    pat <+: (insertAt t n ins).drop i ↔ pat <+: t.drop i := by
  rw [List.prefix_iff_eq_take, List.prefix_iff_eq_take, insertAt_drop_low hn h]

theorem insertAt_drop_at {t ins : List Char} {n : Nat} (hn : n ≤ t.length) :
    (insertAt t n ins).drop n = ins ++ t.drop n := by
  unfold insertAt
  rw [List.append_assoc]
  rw [List.drop_append_of_le_length (by rw [List.length_take]; omega)]
  rw [List.drop_of_length_le (by rw [List.length_take]; omega)]
  rfl

theorem insertAt_drop_high {t ins : List Char} {n j : Nat} (hn : n ≤ t.length)
    (hj : n ≤ j) (hjn : j - n ≤ ins.length) :
    (insertAt t n ins).drop j = ins.drop (j - n) ++ t.drop n := by
  have h1 : (insertAt t n ins).drop j = ((insertAt t n ins).drop n).drop (j - n) := by
    rw [List.drop_drop]
    congr 1
    omega
  rw [h1, insertAt_drop_at hn, List.drop_append_of_le_length hjn]

theorem prefix_insertAt_span {t ins pat : List Char} {n i : Nat} (hn : n ≤ t.length)
    (hi : i < n) (hspan : n < i + pat.length)
    (h : pat <+: (insertAt t n ins).drop i) :
    pat.drop (n - i) <+: ins ++ t.drop n := by
  have hdi : (insertAt t n ins).drop i =
      (t.take n).drop i ++ (ins ++ t.drop n) := by
    unfold insertAt
    rw [List.append_assoc]
    rw [List.drop_append_of_le_length (by rw [List.length_take]; omega)]
  rw [hdi] at h
  have hlen : ((t.take n).drop i).length = n - i := by
    rw [List.length_drop, List.length_take]
    omega
  have hd := prefix_drop_of_append_span h (by omega)
  rwa [hlen] at hd

theorem bsClose_drop_not_prefix_nl {k : Nat} (h1 : 0 < k) (h2 : k < 6)
    (X : List Char) : ¬ bsClose.drop k <+: '\n' :: X := by
  intro h
  have hx : (bsClose.drop k)[0]? = ('\n' :: X)[0]? := by
    rcases h with ⟨s, hs⟩
    rw [← hs]
    rw [List.getElem?_append_left
      (by have hb : bsClose.length = 6 := by decide
          rw [List.length_drop, hb]
          omega)]
  rw [List.getElem?_drop] at hx
  have hx' : bsClose[k]? = some '\n' := by simpa using hx
  have hall : ∀ m, m < 6 → 0 < m → bsClose[m]? ≠ some '\n' := by decide
  exact hall k h2 h1 hx'

theorem locate_insertAt {t config_id ins : List Char} {cs n : Nat}
    (hloc : locate t config_id = some (cs, n))
    (hInsHead : ∃ ir, ins = '\n' :: ir)
    (hInsNoC : ∀ r, r < ins.length → ¬ bsClose <+: ins.drop r) :
    locate (insertAt t n ins) config_id = some (cs, n + ins.length) := by
  obtain ⟨p, mEnd, bs_start, hr, hm, hc, hcs⟩ := locate_spec hloc
  have hn_lt := locate_n_lt hloc
  have hn_le : n ≤ t.length := le_of_lt hn_lt
  have hcs_le := locate_cs_le hloc
  have hr' : regexScanAux (blockOpenPre config_id) blockOpenSuf t = some (p, mEnd) := hr
  obtain ⟨hL1, ⟨q, he, hq1, hq2, hq3⟩, hpmin⟩ := regexScanAux_some_spec hr'
  obtain ⟨hms, hmark, hmmin⟩ := pyFind_some_iff.1 hm
  obtain ⟨hbn, hclose, hcmin⟩ := pyFind_some_iff.1 hc
  have hL2len : blockOpenSuf.length = 7 := by decide
  have hMlen : bsMarker.length = 17 := by decide
  have hClen : bsClose.length = 6 := by decide
  -- global position arithmetic: p + |L1| < q, q + 7 = mEnd ≤ bs_start,
  -- bs_start + 17 = cs ≤ n < |t|
  have harith : p + (blockOpenPre config_id).length + 1 + 7 ≤ bs_start + 17 ∧
      bs_start + 17 ≤ n := by
    constructor
    · omega
    · omega
  -- (a) the regex still matches at (p, mEnd)
  have hsearch : regexScanAux (blockOpenPre config_id) blockOpenSuf
      (insertAt t n ins) = some (p, mEnd) := by
    apply regexScanAux_eq_some (by simp [blockOpenPre])
    · exact (prefix_insertAt_low hn_le (by omega)).2 hL1
    · refine ⟨q, he, hq1, (prefix_insertAt_low hn_le (by omega)).2 hq2, ?_⟩
      intro j hj1 hj2 hcon
      exact hq3 j hj1 hj2 ((prefix_insertAt_low hn_le (by omega)).1 hcon)
    · rintro j hj ⟨hL1j, q', hq'1, hq'2⟩
      rcases le_or_lt (j + (blockOpenPre config_id).length) n with hle | hgt
      · have hL1j' := (prefix_insertAt_low hn_le hle).1 hL1j
        exact hpmin j hj ⟨hL1j', q, by omega, hq2⟩
      · omega
  -- (b) the marker is still found at bs_start
  have hm' : pyFind (insertAt t n ins) bsMarker mEnd = some bs_start := by
    refine pyFind_some_iff.2 ⟨hms, (prefix_insertAt_low hn_le (by omega)).2 hmark, ?_⟩
    intro j hj1 hj2 hcon
    exact hmmin j hj1 hj2 ((prefix_insertAt_low hn_le (by omega)).1 hcon)
  -- (c) the close is now found at n + |ins|
  have hc' : pyFind (insertAt t n ins) bsClose bs_start = some (n + ins.length) := by
    refine pyFind_some_iff.2 ⟨by omega, ?_, ?_⟩
    · rw [insertAt_drop_high hn_le (by omega) (by omega)]
      have : ins.drop (n + ins.length - n) = [] := by
        rw [show n + ins.length - n = ins.length by omega, List.drop_length]
      rw [this, List.nil_append]
      exact hclose
    · intro j hj1 hj2 hcon
      by_cases hj3 : j + 6 ≤ n
      · exact hcmin j hj1 (by omega)
          ((prefix_insertAt_low hn_le (by omega)).1 hcon)
      · by_cases hj4 : j < n
        · have hsp := prefix_insertAt_span hn_le hj4 (by omega) hcon
          obtain ⟨ir, hir⟩ := hInsHead
          rw [hir, List.cons_append] at hsp
          exact bsClose_drop_not_prefix_nl (by omega) (by omega) _ hsp
        · have hge : n ≤ j := by omega
          have hlt2 : j - n < ins.length := by omega
          rw [insertAt_drop_high hn_le hge (by omega)] at hcon
          rcases le_or_lt 6 (ins.drop (j - n)).length with h6 | h6
          · exact hInsNoC (j - n) hlt2
              (prefix_of_append_of_le hcon (by omega))
          · have hsp := prefix_drop_of_append_span hcon (by omega)
            obtain ⟨w, hw⟩ := hclose
            rw [← hw] at hsp
            have hb : bsClose ++ w = '\n' :: ("\t\t\t\x7d;".toList ++ w) := rfl
            rw [hb] at hsp
            have hk0 : 0 < (ins.drop (j - n)).length := by
              rw [List.length_drop]
              omega
            have hk6 : (ins.drop (j - n)).length < 6 := h6
            exact bsClose_drop_not_prefix_nl hk0 hk6 _ hsp
  -- assemble
  have hsearch' : regexSearch (insertAt t n ins) config_id = some (p, mEnd) := hsearch
  unfold locate
  rw [hsearch']
  dsimp only
  rw [hm']
  dsimp only
  rw [hc', hcs]

theorem patch_block_insert_stable {t config_id ins : List Char} {cs n : Nat}
    {sw ip : Bool} (hloc : locate t config_id = some (cs, n))
    (hInsHead : ∃ ir, ins = '\n' :: ir)
    (hInsNoC : ∀ r, r < ins.length → ¬ bsClose <+: ins.drop r)
    (hsw : sw = true →
      containsSub "SWIFT_VERSION".toList ((t.take n).drop cs ++ ins) = true)
    (hip : ip = true →
      containsSub "GENERATE_INFOPLIST_FILE".toList ((t.take n).drop cs ++ ins) = true) :
    patch_block (insertAt t n ins) config_id sw ip = insertAt t n ins := by
  have hloc' := locate_insertAt hloc hInsHead hInsNoC
  have hn_le : n ≤ t.length := le_of_lt (locate_n_lt hloc)
  have hcs_le := locate_cs_le hloc
  have hcc : ((insertAt t n ins).take (n + ins.length)).drop cs =
      (t.take n).drop cs ++ ins := by
    have h1 : (insertAt t n ins).take (n + ins.length) = t.take n ++ ins := by
      unfold insertAt
      rw [show n + ins.length = (t.take n ++ ins).length by
            rw [List.length_append, List.length_take]; omega]
      exact List.take_left _ _
    rw [h1, List.drop_append_of_le_length (by rw [List.length_take]; omega)]
  have hcond1 : (sw && !(containsSub "SWIFT_VERSION".toList
      ((t.take n).drop cs ++ ins))) = false := by
    cases sw with
    | false => rfl
    | true => rw [hsw rfl]; rfl
  have hcond2 : (ip && !(containsSub "GENERATE_INFOPLIST_FILE".toList
      ((t.take n).drop cs ++ ins))) = false := by
    cases ip with
    | false => rfl
    | true => rw [hip rfl]; rfl
  have hpc : patchContent (((insertAt t n ins).take (n + ins.length)).drop cs) sw ip =
      ((insertAt t n ins).take (n + ins.length)).drop cs := by
    rw [hcc]
    unfold patchContent
    simp only [hcond1, hcond2, Bool.false_eq_true, if_false]
  rw [patch_block_eq_of_locate hloc' sw ip, hpc]
  exact take_mid_drop (by omega)

/-- Case analysis of `patchContent`: it is the identity, or appends a
nonempty suffix that starts with `'\n'`, contains no settings-region close
marker at any offset, and already carries every key whose flag is set (so a
second application finds each required key present). -/
theorem patchContent_cases (c : List Char) (sw ip : Bool) :
    patchContent c sw ip = c ∨
    ∃ ins, patchContent c sw ip = c ++ ins ∧
      (∃ ir, ins = '\n' :: ir) ∧
      (∀ r, r < ins.length → ¬ bsClose <+: ins.drop r) ∧
      (sw = true → containsSub "SWIFT_VERSION".toList (c ++ ins) = true) ∧
      (ip = true → containsSub "GENERATE_INFOPLIST_FILE".toList (c ++ ins) = true) := by
  unfold patchContent
  by_cases h1 : (sw && !(containsSub "SWIFT_VERSION".toList c)) = true
  · rw [if_pos h1]
    by_cases h2 : (ip && !(containsSub "GENERATE_INFOPLIST_FILE".toList
        (c ++ '\n' :: SWIFT_VERSION_LINE))) = true
    · rw [if_pos h2]
      refine Or.inr ⟨('\n' :: SWIFT_VERSION_LINE) ++ '\n' :: GENERATE_INFOPLIST_LINE,
        by rw [List.append_assoc], ⟨_, rfl⟩, by decide, ?_, ?_⟩
      · intro _
        exact containsSub_append_right c
          (show containsSub "SWIFT_VERSION".toList
            (('\n' :: SWIFT_VERSION_LINE) ++ '\n' :: GENERATE_INFOPLIST_LINE) = true by decide)
      · intro _
        exact containsSub_append_right c
          (show containsSub "GENERATE_INFOPLIST_FILE".toList
            (('\n' :: SWIFT_VERSION_LINE) ++ '\n' :: GENERATE_INFOPLIST_LINE) = true by decide)
    · rw [if_neg h2]
      refine Or.inr ⟨'\n' :: SWIFT_VERSION_LINE, rfl, ⟨_, rfl⟩, by decide, ?_, ?_⟩
      · intro _
        exact containsSub_append_right c
          (show containsSub "SWIFT_VERSION".toList ('\n' :: SWIFT_VERSION_LINE) = true
            by decide)
      · intro hipt
        rw [hipt, Bool.true_and, Bool.not_eq_true', Bool.not_eq_false] at h2
        exact h2
  · rw [if_neg h1]
    by_cases h2 : (ip && !(containsSub "GENERATE_INFOPLIST_FILE".toList c)) = true
    · rw [if_pos h2]
      refine Or.inr ⟨'\n' :: GENERATE_INFOPLIST_LINE, rfl, ⟨_, rfl⟩, by decide, ?_, ?_⟩
      · intro hswt
        rw [hswt, Bool.true_and, Bool.not_eq_true', Bool.not_eq_false] at h1
        exact containsSub_append_left _ h1
      · intro _
        exact containsSub_append_right c
          (show containsSub "GENERATE_INFOPLIST_FILE".toList
            ('\n' :: GENERATE_INFOPLIST_LINE) = true by decide)
    · rw [if_neg h2]
      exact Or.inl rfl

/- ===================== Claim C4 ========================================== -/

/-- C4: `patch_block` is idempotent — for every input text, block
identifier, and pair of required-settings flags, applying it twice yields
the same result as applying it once.  (When an insertion happens, the second
run locates the same block, the same settings marker and the now-shifted
region close, finds every required key present in the extended region
content, and inserts nothing.) -/
theorem patch_block_idempotent (t config_id : List Char) (sw ip : Bool) :
    patch_block (patch_block t config_id sw ip) config_id sw ip =
      patch_block t config_id sw ip := by
  cases hloc : locate t config_id with
  | none =>
    have h : patch_block t config_id sw ip = t := by
      unfold patch_block
      rw [hloc]
    rw [h, h]
  | some csn =>
    rcases csn with ⟨cs, n⟩
    have hcs_le := locate_cs_le hloc
    rcases patchContent_cases ((t.take n).drop cs) sw ip with hid |
      ⟨ins, hshape, hhead, hnoc, hsw, hip⟩
    · have hr : patch_block t config_id sw ip = t := by
        rw [patch_block_eq_of_locate hloc, hid, take_mid_drop hcs_le]
      rw [hr, hr]
    · have hr : patch_block t config_id sw ip = insertAt t n ins := by
        rw [patch_block_eq_of_locate hloc, hshape]
        have h1 : (t.take n).take cs = t.take cs := by
          rw [List.take_take, Nat.min_eq_left hcs_le]
        unfold insertAt
        calc t.take cs ++ ((t.take n).drop cs ++ ins) ++ t.drop n
            = ((t.take n).take cs ++ (t.take n).drop cs) ++ ins ++ t.drop n := by
              rw [h1]
              simp [List.append_assoc]
          _ = t.take n ++ ins ++ t.drop n := by rw [List.take_append_drop]
      rw [hr]
      exact patch_block_insert_stable hloc hhead hnoc hsw hip
